import Mathlib

set_option linter.unusedVariables false

/-!
Shallow embedding of the `randomneet` constrained random-network generator
(`randomneet/constraints.py`, `randomneet/topology.py`, `randomneet/dynamics.py`)
together with theorems checking the natural-language specification against it.

Modelling conventions:
* Python exceptions are modelled by the `PyError` type; fallible operations
  return `Except PyError _` or a `_ × Option PyError` pair (state after the
  call, error raised if any).
* Randomness (numpy's RNG) is an external collaborator; every random draw is
  an explicit parameter: a uniform variate in `[0,1)` for the Bernoulli
  "stochastic rounding" step, and a stream of naturals driving the
  without-replacement index sampler.
* Python `set`s of bitstrings are modelled as duplicate-free lists; a
  bitstring (a Python string of the characters for zero and one) is a
  `List Bool`.
* Machine floats (`p`, biases) are modelled by `ℚ`; the bias values the code
  manipulates are exact dyadic rationals, so no rounding behaviour is lost.
* `randomizer.py` (the `AbstractRandomizer` base class) is not part of the
  provided sources; where its behaviour is needed (plain storage of an
  already-normalized constraint list, plain append of one constraint) it is
  modelled from the spec, as noted at the points of use.
-/

/-- The kinds of Python exception the code under study can raise. -/
inductive PyError where
  | typeError
  | valueError
  | constraintError
  | notImplementedError
deriving DecidableEq

/-! ### Binary strings: Python `'{0:0{1}b}'.format(index, k)`

`bits n` is the big-endian binary expansion of `n` (empty for `0`);
`bitsPy n` mirrors Python `bin`, which renders `0` as a single zero digit;
`pyBin n k` mirrors the zero-padded format used by `_random_function`:
pad on the left with zeros up to a minimum width of `k`. -/

/-- Big-endian binary digits, with structural fuel (`fuel ≥ n` suffices). -/
def bitsAux : ℕ → ℕ → List Bool
  | _, 0 => []
  | 0, _ + 1 => []
  | fuel + 1, n + 1 => bitsAux fuel ((n + 1) / 2) ++ [(n + 1) % 2 == 1]

/-- Big-endian binary digits of `n`; `bits 0 = []`. -/
def bits (n : ℕ) : List Bool := bitsAux n n

/-- Python `bin` digit list: `0` is rendered as one zero digit. -/
def bitsPy (n : ℕ) : List Bool :=
  if n = 0 then [false] else bits n

/-- Python `'{0:0{1}b}'.format(n, k)`: left-pad the binary digits of `n`
with zeros to a minimum width of `k`. -/
def pyBin (n k : ℕ) : List Bool :=
  List.replicate (k - (bitsPy n).length) false ++ bitsPy n

/-- Value of a big-endian digit list. -/
def decodeBits (l : List Bool) : ℕ :=
  l.foldl (fun acc b => 2 * acc + (if b then 1 else 0)) 0

/-! ### Sampling without replacement

`np.random.choice(volume, num_states, replace=False)` is an external
collaborator (numpy); we model it as successive removal of a seed-selected
element from the remaining pool.  All that the verified code relies on is
that the result consists of `num_states` distinct elements of the pool,
which any faithful model of sampling without replacement provides. -/

/-- Remove the element at position `i` from a list, returning it together
with the remaining pool.  (Only used with `i < l.length`.) -/
def pickAt : List ℕ → ℕ → ℕ × List ℕ
  | [], _ => (0, [])
  | a :: t, 0 => (a, t)
  | a :: t, i + 1 =>
    let r := pickAt t i
    (r.1, a :: r.2)

/-- Modelled collaborator: draw `c` elements without replacement from `pool`,
the stream `sd` supplying the RNG draws (each reduced modulo the size of the
remaining pool).  Mirrors `np.random.choice(pool, c, replace=False)`. -/
def sampleWR (pool : List ℕ) (c : ℕ) (sd : ℕ → ℕ) : List ℕ :=
  match c, pool with
  | 0, _ => []
  | _ + 1, [] => []
  | c' + 1, a :: t =>
    let r := pickAt (a :: t) (sd 0 % (a :: t).length)
    r.1 :: sampleWR r.2 c' (fun i => sd (i + 1))

/-! ### Directed graphs (the networkx collaborator interface)

The core consumes from the graph collaborator: node and edge iteration,
in-degree queries and the weak-connectivity test (spec section 6).  Nodes
are natural numbers; node and edge lists record insertion order. -/

structure DiGraph where
  nodes : List ℕ
  edges : List (ℕ × ℕ)
deriving DecidableEq

/-- Well-formedness of a directed graph: no duplicate nodes or edges, and
every edge endpoint is a node. -/
def DiGraph.wf (g : DiGraph) : Prop :=
  g.nodes.Nodup ∧ g.edges.Nodup ∧ ∀ e ∈ g.edges, e.1 ∈ g.nodes ∧ e.2 ∈ g.nodes

instance : DecidablePred DiGraph.wf := fun g => by
  unfold DiGraph.wf; infer_instance

/-- networkx `g.in_degree(v)`. -/
def DiGraph.inDegree (g : DiGraph) (v : ℕ) : ℕ :=
  (g.edges.filter (fun e => e.2 == v)).length

/-- networkx `g.predecessors(v)`, in edge-insertion order. -/
def DiGraph.predecessors (g : DiGraph) (v : ℕ) : List ℕ :=
  (g.edges.filter (fun e => e.2 == v)).map (fun e => e.1)

/-- Count of `HasExternalNodes.__count_external`: nodes with in-degree 0. -/
def DiGraph.countExternal (g : DiGraph) : ℕ :=
  (g.nodes.filter (fun v => g.inDegree v == 0)).length

/-- Undirected adjacency: an edge in either direction. -/
def DiGraph.adjP (g : DiGraph) (a b : ℕ) : Prop :=
  (a, b) ∈ g.edges ∨ (b, a) ∈ g.edges

instance (g : DiGraph) : DecidableRel g.adjP := fun a b => by
  unfold DiGraph.adjP; infer_instance

/-- One step of undirected reachability closure: all nodes already reached
or adjacent to a reached node. -/
def DiGraph.adjStep (g : DiGraph) (s : Finset ℕ) : Finset ℕ :=
  g.nodes.toFinset.filter (fun b => b ∈ s ∨ ∃ a ∈ s, g.adjP a b)

/-- Iterate `adjStep` until a fixpoint, with explicit fuel. -/
def DiGraph.closureAux (g : DiGraph) : ℕ → Finset ℕ → Finset ℕ
  | 0, s => s
  | fuel + 1, s => if g.adjStep s = s then s else g.closureAux fuel (g.adjStep s)

/-- Modelled collaborator: networkx `nx.is_weakly_connected`, which raises
(`NetworkXPointlessConcept`, here `none`) on the null graph and otherwise
reports whether every node is reachable from the first one ignoring edge
direction. -/
def nxIsWeaklyConnected (g : DiGraph) : Option Bool :=
  match g.nodes with
  | [] => none
  | v :: _ => some (decide (g.closureAux g.nodes.length {v} = g.nodes.toFinset))

/-- Mathematical weak connectivity: any two nodes are joined by a chain of
edges traversed in either direction (spec glossary). -/
def DiGraph.WeaklyConnected (g : DiGraph) : Prop :=
  ∀ u ∈ g.nodes, ∀ v ∈ g.nodes, Relation.ReflTransGen g.adjP u v

/-! ### Logic networks (the neet `LogicNetwork` collaborator interface) -/

/-- The logic table of a `neet.boolean.LogicNetwork`: one
`(predecessor tuple, on-input-set)` row per node. -/
structure LogicNet where
  table : List (List ℕ × List (List Bool))
deriving DecidableEq

/-- Observed bias of one table row: `|on-input-set| / 2^arity`. -/
def LogicNet.rowBias (row : List ℕ × List (List Bool)) : ℚ :=
  (row.2.length : ℚ) / 2 ^ row.1.length

/-- Embedding of `MeanBias._mean_bias` (dynamics.py lines 146-150): the arithmetic mean of
the per-row biases.  (numpy's mean of an empty list is NaN; the empty-table
case is outside every claim, and ℚ's zero-division convention stands in.) -/
def LogicNet._mean_bias (n : LogicNet) : ℚ :=
  (n.table.map LogicNet.rowBias).sum / n.table.length

/-- Flip, in the `k`-character string of an input pattern, the character at
position `pos` (most significant first). -/
def flipBit (m pos k : ℕ) : ℕ := m ^^^ 2 ^ (k - 1 - pos)

/-- Modelled collaborator (neet `is_dependent`, spec section 4.1): a row's
function depends on predecessor position `pos` iff some pair of inputs
differing only in that position differ in on-input-set membership. -/
def LogicNet.rowDepends (row : List ℕ × List (List Bool)) (pos : ℕ) : Bool :=
  (List.range (2 ^ row.1.length)).any (fun m =>
    (row.2.contains (pyBin m row.1.length)) !=
      (row.2.contains (pyBin (flipBit m pos row.1.length) row.1.length)))

/-- Body of `IsIrreducible.satisfies` (constraints.py lines 150-154): every node
depends on every one of its predecessors. -/
def LogicNet.irreducible (n : LogicNet) : Bool :=
  n.table.all (fun row =>
    (List.range row.1.length).all (fun pos => LogicNet.rowDepends row pos))

/-! ### Constraints (constraints.py) -/

/-- The topological constraints of the repository: `HasExternalNodes`,
`IsConnected`, and `GenericTopological` (the adapter wrapping a bare
predicate, referenced from topology.py; its class body is not among the
provided sources and is modelled from spec section 4.1). -/
inductive TopoCon where
  | hasExternalNodes (target : ℕ)
  | isConnected
  | genericTopological (f : DiGraph → Bool)

/-- The dynamical constraints of the repository: `IsIrreducible` and
`GenericDynamical` (the adapter wrapping a bare predicate, referenced from
dynamics.py; its class body is not among the provided sources and is
modelled from spec section 4.1). -/
inductive DynCon where
  | isIrreducible
  | genericDynamical (f : LogicNet → Bool)

/-- A value passed to `TopologicalConstraint.satisfies`: either a directed
graph or anything else (which fails the `isinstance` check,
constraints.py lines 43-44). -/
inductive GraphArg where
  | graph (g : DiGraph)
  | notGraph

/-- The `satisfies` check on a value already known to be a directed graph.
`HasExternalNodes.satisfies`: external-node count equals the target.
`IsConnected.satisfies` (constraints.py lines 125-129): delegate to
networkx and re-raise its exception as a `ConstraintError`.
`GenericTopological.satisfies`: apply the wrapped predicate. -/
def TopoCon.satisfiesOn (c : TopoCon) (g : DiGraph) : Except PyError Bool :=
  match c with
  | .hasExternalNodes t => .ok (g.countExternal == t)
  | .isConnected =>
    match nxIsWeaklyConnected g with
    | none => .error .constraintError
    | some b => .ok b
  | .genericTopological f => .ok (f g)

/-- Embedding of `TopologicalConstraint.satisfies` including the subject-type check. -/
def TopoCon.satisfies (c : TopoCon) (x : GraphArg) : Except PyError Bool :=
  match x with
  | .graph g => c.satisfiesOn g
  | .notGraph => .error .typeError

/-- Embedding of `DynamicalConstraint.satisfies` on a logic network (the only kind of
network produced by `NetworkRandomizer._randomize`). -/
def DynCon.satisfies (c : DynCon) (n : LogicNet) : Except PyError Bool :=
  match c with
  | .isIrreducible => .ok n.irreducible
  | .genericDynamical f => .ok (f n)

/-! ### TopologyRandomizer and FixedTopology (topology.py) -/

/-- An element of a constraint list handed to a `TopologyRandomizer`:
a topological constraint, a bare callable, or anything else. -/
inductive TopoElem where
  | con (t : TopoCon)
  | call (f : DiGraph → Bool)
  | other

/-- State of a `TopologyRandomizer`: whether it is a `FixedTopology`
(whose setters validate eagerly), its reference graph, and its stored
constraint list. -/
structure TRState where
  fixed : Bool
  graph : DiGraph
  tcons : List TopoCon

/-- Normalization of one constraint-list element (topology.py lines 29-34
and 46-51): keep a `TopologicalConstraint`, wrap a callable in
`GenericTopological`, reject anything else with a `TypeError`. -/
def TopologyRandomizer.normalize1 : TopoElem → Except PyError TopoCon
  | .con t => .ok t
  | .call f => .ok (.genericTopological f)
  | .other => .error .typeError

/-- The normalization loop of the `TopologyRandomizer` constraints setter
(topology.py lines 28-34). -/
def TopologyRandomizer.normalizeAll : List TopoElem → Except PyError (List TopoCon)
  | [] => .ok []
  | e :: rest =>
    match TopologyRandomizer.normalize1 e with
    | .error err => .error err
    | .ok c => (TopologyRandomizer.normalizeAll rest).map (fun l => c :: l)

/-- The normalization-and-validation loop of the `FixedTopology` constraints
setter (topology.py lines 75-84): normalize each element, then check it
against the stored graph, failing with a `ConstraintError` on a constraint
the graph does not satisfy (and propagating any error `satisfies` raises). -/
def FixedTopology.normalizeValidate (g : DiGraph) :
    List TopoElem → Except PyError (List TopoCon)
  | [] => .ok []
  | e :: rest =>
    match TopologyRandomizer.normalize1 e with
    | .error err => .error err
    | .ok c =>
      match c.satisfiesOn g with
      | .ok true => (FixedTopology.normalizeValidate g rest).map (fun l => c :: l)
      | .ok false => .error .constraintError
      | .error err => .error err

/-- The `constraints` property setter of a topology randomizer, dispatched on
the dynamic class as Python does (topology.py lines 14-36 and 61-86).  The
final storage step is the base `AbstractRandomizer` setter, modelled from
the spec (section 4.2) as plain storage of the normalized list since
randomizer.py is not among the provided sources.  Returns the state after
the call and the error raised, if any. -/
def TRState.setConstraints (st : TRState) (cs : List TopoElem) :
    TRState × Option PyError :=
  match (if st.fixed then FixedTopology.normalizeValidate st.graph cs
         else TopologyRandomizer.normalizeAll cs) with
  | .ok l => ({ st with tcons := l }, none)
  | .error e => (st, some e)

/-- The `add_constraint` method of a topology randomizer, dispatched on the dynamic
class (topology.py lines 38-53 and 88-107).  The final append is the base
`AbstractRandomizer.add_constraint`, modelled from the spec (section 4.2)
as a plain append since randomizer.py is not among the provided sources. -/
def TRState.add_constraint (st : TRState) (e : TopoElem) :
    TRState × Option PyError :=
  match TopologyRandomizer.normalize1 e with
  | .error err => (st, some err)
  | .ok c =>
    if st.fixed then
      match c.satisfiesOn st.graph with
      | .ok true => ({ st with tcons := st.tcons ++ [c] }, none)
      | .ok false => (st, some .constraintError)
      | .error err => (st, some err)
    else ({ st with tcons := st.tcons ++ [c] }, none)

/-- Embedding of `FixedTopology._randomize` (topology.py lines 120-126): return the
stored reference graph. -/
def FixedTopology._randomize (st : TRState) : DiGraph := st.graph

/-- Embedding of `FixedTopology.random` (topology.py lines 109-118).  Its return type
`DiGraph` (not `Except`) reflects that it cannot raise. -/
def FixedTopology.random (st : TRState) : DiGraph :=
  FixedTopology._randomize st

/-! ### NetworkRandomizer (dynamics.py) -/

/-- An element of a constraint list handed to a `NetworkRandomizer`:
a dynamical constraint, a topological constraint, a bare callable
(used as a dynamical predicate), or anything else. -/
inductive CElem where
  | dyn (d : DynCon)
  | topo (t : TopoCon)
  | call (f : LogicNet → Bool)
  | other

/-- State of a `NetworkRandomizer`: its internal topology randomizer and its
own (dynamical) constraint list. -/
structure NRState where
  trand : TRState
  dcons : List DynCon

/-- The partition loop of the `NetworkRandomizer` constraints setter
(dynamics.py lines 56-67): dynamical constraints and wrapped callables go
to the local dynamical list, topological constraints to the local
topological list, in order; anything else raises a `TypeError`. -/
def NetworkRandomizer.partitionConstraints :
    List CElem → Except PyError (List TopoCon × List DynCon)
  | [] => .ok ([], [])
  | c :: rest =>
    match c with
    | .dyn d =>
      (NetworkRandomizer.partitionConstraints rest).map (fun r => (r.1, d :: r.2))
    | .topo t =>
      (NetworkRandomizer.partitionConstraints rest).map (fun r => (t :: r.1, r.2))
    | .call f =>
      (NetworkRandomizer.partitionConstraints rest).map
        (fun r => (r.1, DynCon.genericDynamical f :: r.2))
    | .other => .error .typeError

/-- The `NetworkRandomizer` constraints setter (dynamics.py lines 42-70):
partition the list, assign the topological part to `trand.constraints`
(which may raise, e.g. `FixedTopology`'s eager validation), then store the
dynamical part through the base setter (modelled from the spec as plain
storage, randomizer.py not being among the provided sources).  Returns
the state after the call and the error raised, if any. -/
def NetworkRandomizer.setConstraints (s : NRState) (cs : List CElem) :
    NRState × Option PyError :=
  match NetworkRandomizer.partitionConstraints cs with
  | .error e => (s, some e)
  | .ok r =>
    match TRState.setConstraints s.trand (r.1.map TopoElem.con) with
    | (tr2, some e) => ({ s with trand := tr2 }, some e)
    | (tr2, none) => ({ s with trand := tr2, dcons := r.2 }, none)

/-- Embedding of `NetworkRandomizer.add_constraint` (dynamics.py lines 72-88). -/
def NetworkRandomizer.add_constraint (s : NRState) (c : CElem) :
    NRState × Option PyError :=
  match c with
  | .dyn d => ({ s with dcons := s.dcons ++ [d] }, none)
  | .call f => ({ s with dcons := s.dcons ++ [DynCon.genericDynamical f] }, none)
  | .topo t =>
    match TRState.add_constraint s.trand (.con t) with
    | (tr2, e) => ({ s with trand := tr2 }, e)
  | .other => (s, some .typeError)

/-- Claim-side projection: the topological constraints of a list, in their
original relative order. -/
def CElem.topoPart : CElem → Option TopoCon
  | .topo t => some t
  | _ => none

/-- Claim-side projection: the dynamical constraints of a list (bare
callables wrapped in `GenericDynamical`), in their original relative
order. -/
def CElem.dynPart : CElem → Option DynCon
  | .dyn d => some d
  | .call f => some (.genericDynamical f)
  | _ => none

/-- The `num_states` computation of `NetworkRandomizer._random_function`
(dynamics.py lines 110-112): split `p * volume` into integer part and
fractional remainder; add one when the Bernoulli draw (modelled by the
uniform variate `u`, with `np.random.choice(2, p=[1-decimal, decimal])`
returning 1 iff `u` falls in the final `decimal`-sized slice of `[0,1)`)
comes up 1. -/
def NetworkRandomizer.numStates (k : ℕ) (p u : ℚ) : ℕ :=
  (⌊p * ((2 ^ k : ℕ) : ℚ)⌋).toNat +
    (if u < 1 - Int.fract (p * ((2 ^ k : ℕ) : ℚ)) then 0 else 1)

/-- Embedding of `NetworkRandomizer._random_function(k, p)`
(dynamics.py lines 109-114): `volume = 2**k`; compute `num_states` by
stochastic rounding of `p * volume`; sample that many distinct indices
without replacement from `[0, volume)` and render each as a zero-padded
width-`k` binary string. -/
def NetworkRandomizer._random_function (k : ℕ) (p : ℚ) (u : ℚ) (sd : ℕ → ℕ) :
    List (List Bool) :=
  (sampleWR (List.range (2 ^ k)) (NetworkRandomizer.numStates k p u) sd).map
    (fun index => pyBin index k)

/-- Embedding of `NetworkRandomizer._randomize(topology)` (dynamics.py lines 101-107):
for each node of the drawn topology, pair its predecessor tuple with a
random on-input-set of arity `in_degree(node)`.  The per-node bias comes
from the `_function_class_parameters` hook (`pf`); `u` and `sd` supply the
per-node random draws. -/
def NetworkRandomizer._randomize (g : DiGraph) (pf : ℕ → ℚ) (u : ℕ → ℚ)
    (sd : ℕ → ℕ → ℕ) : LogicNet :=
  ⟨g.nodes.map (fun node =>
    (g.predecessors node,
     NetworkRandomizer._random_function (g.inDegree node) (pf node) (u node)
       (sd node)))⟩

/-- Embedding of `AbstractRandomizer._check_constraints`, modelled from the spec
(section 4.2 step 3; randomizer.py is not among the provided sources):
every stored constraint must be satisfied; the first raising constraint
propagates its error. -/
def NetworkRandomizer.checkConstraints (ds : List DynCon) (n : LogicNet) :
    Except PyError Bool :=
  match ds with
  | [] => .ok true
  | c :: rest =>
    match c.satisfies n with
    | .error e => .error e
    | .ok true => NetworkRandomizer.checkConstraints rest n
    | .ok false => .ok false

/-- The loop guard of `NetworkRandomizer.random`
(dynamics.py line 94): `self.timeout <= 0 or loop < self.timeout`. -/
def NetworkRandomizer.guard (timeout : Int) (loop : ℕ) : Bool :=
  decide (timeout ≤ 0) || decide ((loop : Int) < timeout)

/-- Observable state of one `random()` call after a number of loop steps. -/
inductive Outcome where
  | running (loop : ℕ)
  | returned (net : LogicNet)
  | raised (e : PyError)
deriving DecidableEq

/-- Small-step semantics of the rejection loop of `NetworkRandomizer.random`
(dynamics.py lines 93-99), evaluated for `n` steps: from loop counter `l`,
if the guard holds, generate candidate `gen l` and test it (returning it on
success, continuing on failure, propagating a raising constraint);
if the guard fails, raise the `ConstraintError`.  `running l` records that
`l` candidates have been generated and rejected so far. -/
def NetworkRandomizer.loopOutcome (timeout : Int) (ds : List DynCon)
    (gen : ℕ → LogicNet) : ℕ → Outcome
  | 0 => .running 0
  | n + 1 =>
    match NetworkRandomizer.loopOutcome timeout ds gen n with
    | .running l =>
      if NetworkRandomizer.guard timeout l then
        match NetworkRandomizer.checkConstraints ds (gen l) with
        | .ok true => .returned (gen l)
        | .ok false => .running (l + 1)
        | .error e => .raised e
      else .raised .constraintError
    | o => o

/-- Embedding of `NetworkRandomizer.random` (dynamics.py lines 90-99):
`topology = self.trand.random()` is called once, before the loop — the
stream `tdraws` models the successive results a fresh `trand.random()`
call would return, and only `tdraws 0` is consumed — then every loop
iteration builds its candidate over that one topology. -/
def NetworkRandomizer.randomOutcome (timeout : Int) (ds : List DynCon)
    (tdraws : ℕ → DiGraph) (pf : ℕ → ℚ) (u : ℕ → ℕ → ℚ) (sd : ℕ → ℕ → ℕ → ℕ)
    (n : ℕ) : Outcome :=
  NetworkRandomizer.loopOutcome timeout ds
    (fun l => NetworkRandomizer._randomize (tdraws 0) pf (u l) (sd l)) n

/-- The claim's reading of `random()`, for comparison (claim C1 / spec
section 4.4): the `i`-th candidate is built over a fresh topology draw
`tdraws i`. -/
def NetworkRandomizer.randomFreshClaim (timeout : Int) (ds : List DynCon)
    (tdraws : ℕ → DiGraph) (pf : ℕ → ℚ) (u : ℕ → ℕ → ℚ) (sd : ℕ → ℕ → ℕ → ℕ)
    (n : ℕ) : Outcome :=
  NetworkRandomizer.loopOutcome timeout ds
    (fun l => NetworkRandomizer._randomize (tdraws l) pf (u l) (sd l)) n

/-! ### `NetworkRandomizer.__init__` trand handling (dynamics.py lines 12-36) -/

/-- The `trand` argument of `NetworkRandomizer.__init__`: `None`, a
`TopologyRandomizer` instance, a `TopologyRandomizer` subclass (`fixed`
records which concrete strategy), a non-randomizer instance, or a
non-randomizer class. -/
inductive TrandArg where
  | noneArg
  | inst (t : TRState)
  | cls (fixed : Bool)
  | badInst
  | badCls

/-- What `NetworkRandomizer.__init__` actually does with `trand`
(dynamics.py line 35): the normalization of lines 27-34 is commented out,
so the argument is stored unchanged and no error is ever raised. -/
def NetworkRandomizer.initTrand (trand : TrandArg) : Except PyError TrandArg :=
  .ok trand

/-- Modelled from the spec (section 4.4; the normalizing code is present in
dynamics.py only as the commented-out lines 27-34): `None` defaults to
`FixedTopology` over the reference graph, an instance is kept, a subclass
is instantiated over the reference graph, anything else is a `TypeError`. -/
def NetworkRandomizer.initTrandSpec (g : DiGraph) (trand : TrandArg) :
    Except PyError TRState :=
  match trand with
  | .noneArg => .ok ⟨true, g, []⟩
  | .inst t => .ok t
  | .cls fixed => .ok ⟨fixed, g, []⟩
  | .badInst => .error .typeError
  | .badCls => .error .typeError

/-! ### MeanBias (dynamics.py lines 136-150) -/

/-- A reference network handed to a randomizer constructor: a logic-table
network (`neet.boolean.LogicNetwork`) or any other network kind (such as
the `WTNetwork` `s_pombe`). -/
inductive NetRef where
  | logic (n : LogicNet)
  | nonLogic

/-- Embedding of `MeanBias.__init__` (dynamics.py lines 137-144): raise
`NotImplementedError` unless the reference network is a logic-table
network, otherwise derive the uniform bias `p` as the reference's mean
bias.  Returns the derived `p`. -/
def MeanBias.init (network : NetRef) : Except PyError ℚ :=
  match network with
  | .logic n => .ok (LogicNet._mean_bias n)
  | .nonLogic => .error .notImplementedError

/-! ### LocalBias construction and IsIrreducible subjects (C4) -/

/-- A value passed to `DynamicalConstraint.satisfies`: a logic-table
network, a neet network of another kind (such as the `WTNetwork`
`s_pombe`), or not a network at all. -/
inductive NetArg where
  | logic (n : LogicNet)
  | wtNet
  | notNet

/-- Embedding of `IsIrreducible.satisfies` over every subject kind
(constraints.py lines 136-154): the inherited subject-type check raises a
`TypeError` on non-networks (lines 62-63), a network that is not a
`LogicNetwork` raises `NotImplementedError` (lines 146-148) — when
`satisfies` is exercised, never at construction, since `IsIrreducible`
has no initializer — and a logic network runs the dependency loop.
`DynCon.satisfies` is its restriction to the logic networks produced by
`NetworkRandomizer._randomize`. -/
def IsIrreducible.satisfies (x : NetArg) : Except PyError Bool :=
  match x with
  | .notNet => .error .typeError
  | .wtNet => .error .notImplementedError
  | .logic n => .ok n.irreducible

/-- The concrete topology strategies of topology.py, as passed (as a class
or an instance) for the `trand` argument of `LocalBias`. -/
inductive TRStrategy where
  | fixedTopology
  | inDegree
  | meanDegree
  | outDegree

/-- Modelled from the spec: `LocalBias.__init__` — `LocalBias` is imported
by the repository's tests from randomneet.dynamics but its class body is
not among the provided sources.  Spec section 4.5: only defined when the
reference is a logic-table network and the topology strategy is
`FixedTopology` or `InDegree`, else a not-implemented error; the per-node
parameters pull each node's own observed bias, keyed by position.  The
raise point (construction) follows the repository's `test_unimplemented`,
which asserts `LocalBias(s_pombe)`, `LocalBias(myeloid, MeanDegree)` and
`LocalBias(myeloid, MeanDegree(myeloid))` raise `NotImplementedError`
directly at construction.  Returns the per-node bias list. -/
def LocalBias.init (network : NetRef) (strategy : TRStrategy) :
    Except PyError (List ℚ) :=
  match network with
  | .nonLogic => .error .notImplementedError
  | .logic n =>
    match strategy with
    | .fixedTopology => .ok (n.table.map LogicNet.rowBias)
    | .inDegree => .ok (n.table.map LogicNet.rowBias)
    | .meanDegree => .error .notImplementedError
    | .outDegree => .error .notImplementedError

/-! ## Theorems -/

/-! ### Bitstring lemmas -/

theorem bitsAux_zero (fuel : ℕ) : bitsAux fuel 0 = [] := by
  cases fuel <;> rfl

theorem bitsAux_fuel_irrel : ∀ (n fuel fuel2 : ℕ), n ≤ fuel → n ≤ fuel2 →
    bitsAux fuel n = bitsAux fuel2 n := by
  intro n
  induction n using Nat.strong_induction_on with
  | _ n ih =>
    intro fuel fuel2 h1 h2
    cases n with
    | zero => rw [bitsAux_zero, bitsAux_zero]
    | succ m =>
      cases fuel with
      | zero => omega
      | succ f =>
        cases fuel2 with
        | zero => omega
        | succ f2 =>
          show bitsAux f ((m + 1) / 2) ++ _ = bitsAux f2 ((m + 1) / 2) ++ _
          rw [ih ((m + 1) / 2) (by omega) f f2 (by omega) (by omega)]

theorem bits_eq (n : ℕ) :
    bits n = if n = 0 then [] else bits (n / 2) ++ [n % 2 == 1] := by
  cases n with
  | zero => rfl
  | succ m =>
    rw [if_neg (Nat.succ_ne_zero m)]
    show bitsAux m ((m + 1) / 2) ++ _ = bitsAux ((m + 1) / 2) ((m + 1) / 2) ++ _
    rw [bitsAux_fuel_irrel ((m + 1) / 2) m ((m + 1) / 2) (by omega) (by omega)]

theorem decodeBits_aux (l : List Bool) (a : ℕ) :
    l.foldl (fun acc b => 2 * acc + (if b then 1 else 0)) a =
      a * 2 ^ l.length + decodeBits l := by
  induction l generalizing a with
  | nil => simp [decodeBits]
  | cons b t ih =>
    simp only [List.foldl_cons, decodeBits, List.length_cons]
    rw [ih, ih (2 * 0 + _)]
    ring

theorem decodeBits_append (l₁ l₂ : List Bool) :
    decodeBits (l₁ ++ l₂) = decodeBits l₁ * 2 ^ l₂.length + decodeBits l₂ := by
  unfold decodeBits
  rw [List.foldl_append]
  exact decodeBits_aux l₂ _

theorem decodeBits_replicate_false (n : ℕ) :
    decodeBits (List.replicate n false) = 0 := by
  induction n with
  | zero => rfl
  | succ m ih =>
    have : List.replicate (m + 1) false = List.replicate m false ++ [false] := by
      rw [List.replicate_succ' m false]
    rw [this, decodeBits_append, ih]
    rfl

theorem decodeBits_bits (n : ℕ) : decodeBits (bits n) = n := by
  induction n using Nat.strong_induction_on with
  | _ n ih =>
    by_cases h : n = 0
    · subst h; simp [bits_eq, decodeBits]
    · rw [bits_eq, if_neg h, decodeBits_append]
      have hdiv : decodeBits (bits (n / 2)) = n / 2 :=
        ih (n / 2) (Nat.div_lt_self (Nat.pos_of_ne_zero h) (by decide))
      rw [hdiv]
      have hmod : decodeBits [n % 2 == 1] = n % 2 := by
        rcases Nat.mod_two_eq_zero_or_one n with h2 | h2 <;> simp [h2, decodeBits]
      rw [hmod]
      simp only [List.length_singleton, pow_one]
      omega

theorem decodeBits_bitsPy (n : ℕ) : decodeBits (bitsPy n) = n := by
  by_cases h : n = 0
  · subst h; rfl
  · rw [bitsPy, if_neg h]; exact decodeBits_bits n

theorem decodeBits_pyBin (n k : ℕ) : decodeBits (pyBin n k) = n := by
  rw [pyBin, decodeBits_append, decodeBits_replicate_false, decodeBits_bitsPy]
  ring

theorem pyBin_injective (k : ℕ) : ∀ a b : ℕ, pyBin a k = pyBin b k → a = b := by
  intro a b h
  have := congrArg decodeBits h
  rwa [decodeBits_pyBin, decodeBits_pyBin] at this

theorem bits_length_le (k : ℕ) : ∀ n : ℕ, n < 2 ^ k → (bits n).length ≤ k := by
  induction k with
  | zero =>
    intro n hn
    interval_cases n
    simp [bits_eq]
  | succ m ih =>
    intro n hn
    by_cases h : n = 0
    · subst h; simp [bits_eq]
    · rw [bits_eq, if_neg h, List.length_append, List.length_singleton]
      have h2 : n < 2 * 2 ^ m := by rw [← pow_succ']; exact hn
      have := ih (n / 2) (Nat.div_lt_of_lt_mul h2)
      omega

theorem pyBin_length_of_lt {n k : ℕ} (hk : 1 ≤ k) (hn : n < 2 ^ k) :
    (pyBin n k).length = k := by
  rw [pyBin, List.length_append, List.length_replicate]
  have hle : (bitsPy n).length ≤ k := by
    by_cases h : n = 0
    · subst h; simpa [bitsPy] using hk
    · rw [bitsPy, if_neg h]; exact bits_length_le k n hn
  omega

/-! ### Sampling lemmas -/

theorem pickAt_mem : ∀ (l : List ℕ) (i : ℕ), i < l.length → (pickAt l i).1 ∈ l := by
  intro l
  induction l with
  | nil => intro i hi; simp at hi
  | cons a t ih =>
    intro i hi
    cases i with
    | zero => simp [pickAt]
    | succ j =>
      simp only [pickAt, List.mem_cons]
      right
      exact ih j (by simpa using hi)

theorem pickAt_rest_subset : ∀ (l : List ℕ) (i : ℕ) (y : ℕ),
    y ∈ (pickAt l i).2 → y ∈ l := by
  intro l
  induction l with
  | nil => intro i y hy; simp [pickAt] at hy
  | cons a t ih =>
    intro i y hy
    cases i with
    | zero => simp [pickAt] at hy; simp [hy]
    | succ j =>
      simp only [pickAt, List.mem_cons] at hy ⊢
      rcases hy with h | h
      · left; exact h
      · right; exact ih j y h

theorem pickAt_rest_length : ∀ (l : List ℕ) (i : ℕ), i < l.length →
    (pickAt l i).2.length + 1 = l.length := by
  intro l
  induction l with
  | nil => intro i hi; simp at hi
  | cons a t ih =>
    intro i hi
    cases i with
    | zero => simp [pickAt]
    | succ j =>
      simp only [pickAt, List.length_cons]
      rw [← ih j (by simpa using hi)]

theorem pickAt_nodup : ∀ (l : List ℕ) (i : ℕ), l.Nodup →
    (pickAt l i).2.Nodup ∧ (i < l.length → (pickAt l i).1 ∉ (pickAt l i).2) := by
  intro l
  induction l with
  | nil => intro i _; simp [pickAt]
  | cons a t ih =>
    intro i hnd
    rw [List.nodup_cons] at hnd
    cases i with
    | zero =>
      simp only [pickAt]
      exact ⟨hnd.2, fun _ => hnd.1⟩
    | succ j =>
      have h := ih j hnd.2
      constructor
      · simp only [pickAt, List.nodup_cons]
        exact ⟨fun hy => hnd.1 (pickAt_rest_subset t j a hy), h.1⟩
      · intro hj
        have hj' : j < t.length := by simpa using hj
        simp only [pickAt, List.mem_cons, not_or]
        exact ⟨fun he => hnd.1 (he ▸ pickAt_mem t j hj'), h.2 hj'⟩

theorem sampleWR_subset : ∀ (pool : List ℕ) (c : ℕ) (sd : ℕ → ℕ) (y : ℕ),
    y ∈ sampleWR pool c sd → y ∈ pool := by
  intro pool c
  induction c generalizing pool with
  | zero => intro sd y hy; simp [sampleWR] at hy
  | succ m ih =>
    intro sd y hy
    cases pool with
    | nil => simp [sampleWR] at hy
    | cons a t =>
      simp only [sampleWR, List.mem_cons] at hy
      have hlt : (sd 0 % (a :: t).length) < (a :: t).length :=
        Nat.mod_lt _ (by simp)
      rcases hy with h | h
      · exact h ▸ pickAt_mem (a :: t) _ hlt
      · exact pickAt_rest_subset (a :: t) _ y (ih _ _ y h)

theorem sampleWR_nodup : ∀ (pool : List ℕ) (c : ℕ) (sd : ℕ → ℕ),
    pool.Nodup → (sampleWR pool c sd).Nodup := by
  intro pool c
  induction c generalizing pool with
  | zero => intro sd _; simp [sampleWR]
  | succ m ih =>
    intro sd hnd
    cases pool with
    | nil => simp [sampleWR]
    | cons a t =>
      have hlt : (sd 0 % (a :: t).length) < (a :: t).length :=
        Nat.mod_lt _ (by simp)
      have hp := pickAt_nodup (a :: t) (sd 0 % (a :: t).length) hnd
      simp only [sampleWR, List.nodup_cons]
      exact ⟨fun hy => hp.2 hlt (sampleWR_subset _ _ _ _ hy), ih _ _ hp.1⟩

theorem sampleWR_length : ∀ (pool : List ℕ) (c : ℕ) (sd : ℕ → ℕ),
    c ≤ pool.length → (sampleWR pool c sd).length = c := by
  intro pool c
  induction c generalizing pool with
  | zero => intro sd _; simp [sampleWR]
  | succ m ih =>
    intro sd hc
    cases pool with
    | nil => simp at hc
    | cons a t =>
      have hlt : (sd 0 % (a :: t).length) < (a :: t).length :=
        Nat.mod_lt _ (by simp)
      have hrest := pickAt_rest_length (a :: t) (sd 0 % (a :: t).length) hlt
      simp only [List.length_cons] at hrest hc
      simp only [sampleWR, List.length_cons]
      rw [ih _ _ (by omega)]

/-! ### `_random_function` lemmas -/

theorem numStates_le_volume (k : ℕ) (p u : ℚ) (hp0 : 0 ≤ p) (hp1 : p ≤ 1)
    (hu1 : u < 1) : NetworkRandomizer.numStates k p u ≤ 2 ^ k := by
  unfold NetworkRandomizer.numStates
  set x : ℚ := p * ((2 ^ k : ℕ) : ℚ) with hx
  have hxle : x ≤ ((2 ^ k : ℕ) : ℚ) := by
    rw [hx]
    calc p * ((2 ^ k : ℕ) : ℚ) ≤ 1 * ((2 ^ k : ℕ) : ℚ) := by
          apply mul_le_mul_of_nonneg_right hp1 (by positivity)
      _ = ((2 ^ k : ℕ) : ℚ) := one_mul _
  have hx0 : 0 ≤ x := by
    rw [hx]
    exact mul_nonneg hp0 (by positivity)
  have hfl0 : 0 ≤ ⌊x⌋ := Int.floor_nonneg.mpr hx0
  have hfl : ⌊x⌋ ≤ ((2 ^ k : ℕ) : ℤ) := by
    have := Int.floor_le_floor hxle
    rwa [Int.floor_natCast] at this
  split
  · rw [Nat.add_zero]
    exact Int.toNat_le.mpr hfl
  · rename_i hcond
    push_neg at hcond
    have hfr : 0 < Int.fract x := by
      have h1 : 1 - Int.fract x ≤ u := hcond
      linarith
    have hlt : (⌊x⌋ : ℚ) < x := by
      have := Int.fract_nonneg x
      rw [Int.fract] at hfr
      linarith
    have hfl2 : ⌊x⌋ < ((2 ^ k : ℕ) : ℤ) := by
      by_contra hcontra
      push_neg at hcontra
      have : ((2 ^ k : ℕ) : ℚ) ≤ (⌊x⌋ : ℚ) := by exact_mod_cast hcontra
      linarith
    have h5 : ⌊x⌋ + 1 ≤ ((2 ^ k : ℕ) : ℤ) := Int.add_one_le_iff.mpr hfl2
    have h6 : (⌊x⌋ + 1).toNat = ⌊x⌋.toNat + 1 := by omega
    have h7 := Int.toNat_le.mpr h5
    rw [h6] at h7
    exact h7

theorem random_function_length (k : ℕ) (p u : ℚ) (sd : ℕ → ℕ) (hp0 : 0 ≤ p)
    (hp1 : p ≤ 1) (hu1 : u < 1) :
    (NetworkRandomizer._random_function k p u sd).length =
      NetworkRandomizer.numStates k p u := by
  unfold NetworkRandomizer._random_function
  rw [List.length_map]
  exact sampleWR_length _ _ _
    (by rw [List.length_range]; exact numStates_le_volume k p u hp0 hp1 hu1)

theorem random_function_nodup (k : ℕ) (p u : ℚ) (sd : ℕ → ℕ) :
    (NetworkRandomizer._random_function k p u sd).Nodup := by
  unfold NetworkRandomizer._random_function
  apply List.Nodup.map (fun a b h => pyBin_injective k a b h)
  exact sampleWR_nodup _ _ _ (List.nodup_range _)

theorem random_function_mem (k : ℕ) (p u : ℚ) (sd : ℕ → ℕ) (bs : List Bool)
    (hbs : bs ∈ NetworkRandomizer._random_function k p u sd) :
    ∃ i : ℕ, i < 2 ^ k ∧ bs = pyBin i k := by
  unfold NetworkRandomizer._random_function at hbs
  obtain ⟨i, hi, rfl⟩ := List.mem_map.mp hbs
  exact ⟨i, List.mem_range.mp (sampleWR_subset _ _ _ _ hi), rfl⟩

theorem random_function_decode_lt (k : ℕ) (p u : ℚ) (sd : ℕ → ℕ) :
    ∀ bs ∈ NetworkRandomizer._random_function k p u sd, decodeBits bs < 2 ^ k := by
  intro bs hbs
  obtain ⟨i, hik, rfl⟩ := random_function_mem k p u sd bs hbs
  rwa [decodeBits_pyBin]

theorem random_function_width (k : ℕ) (hk : 1 ≤ k) (p u : ℚ) (sd : ℕ → ℕ) :
    ∀ bs ∈ NetworkRandomizer._random_function k p u sd, bs.length = k := by
  intro bs hbs
  obtain ⟨i, hik, rfl⟩ := random_function_mem k p u sd bs hbs
  exact pyBin_length_of_lt hk hik

theorem random_function_arity_zero (p u : ℚ) (sd : ℕ → ℕ) :
    ∀ bs ∈ NetworkRandomizer._random_function 0 p u sd, bs = [false] := by
  intro bs hbs
  obtain ⟨i, hik, rfl⟩ := random_function_mem 0 p u sd bs hbs
  interval_cases i
  decide

/-- C7 (amended): for every arity `k ≥ 0` and bias `p ∈ [0,1]`, the
bias-controlled function generator returns a duplicate-free on-input-set
whose cardinality is `⌊p·2^k⌋` or `⌊p·2^k⌋ + 1` (the Bernoulli
stochastic-rounding draw), whose members decode to indices drawn without
replacement from `[0, 2^k)`; the bitstrings have fixed width `k` whenever
`k ≥ 1` (for `k = 0` the Python binary format emits the width-1 string
of a single zero, see the counterexample). -/
theorem random_function_stochastic_rounding (k : ℕ) (p u : ℚ) (sd : ℕ → ℕ)
    (hp0 : 0 ≤ p) (hp1 : p ≤ 1) (hu1 : u < 1) :
    ((NetworkRandomizer._random_function k p u sd).length =
        (⌊p * ((2 ^ k : ℕ) : ℚ)⌋).toNat ∨
      (NetworkRandomizer._random_function k p u sd).length =
        (⌊p * ((2 ^ k : ℕ) : ℚ)⌋).toNat + 1) ∧
    (NetworkRandomizer._random_function k p u sd).Nodup ∧
    (∀ bs ∈ NetworkRandomizer._random_function k p u sd, decodeBits bs < 2 ^ k) ∧
    (1 ≤ k → ∀ bs ∈ NetworkRandomizer._random_function k p u sd, bs.length = k) := by
  refine ⟨?_, random_function_nodup k p u sd, random_function_decode_lt k p u sd,
    fun hk => random_function_width k hk p u sd⟩
  rw [random_function_length k p u sd hp0 hp1 hu1]
  unfold NetworkRandomizer.numStates
  split
  · left; rfl
  · right; rfl

/-- C7 witness: the theorem evaluated at `k = 2`, `p = 1/2`. -/
theorem random_function_stochastic_rounding_witness :
    ((NetworkRandomizer._random_function 2 (1/2) 0 (fun _ => 0)).length =
        (⌊(1/2 : ℚ) * ((2 ^ 2 : ℕ) : ℚ)⌋).toNat ∨
      (NetworkRandomizer._random_function 2 (1/2) 0 (fun _ => 0)).length =
        (⌊(1/2 : ℚ) * ((2 ^ 2 : ℕ) : ℚ)⌋).toNat + 1) ∧
    (NetworkRandomizer._random_function 2 (1/2) 0 (fun _ => 0)).Nodup ∧
    (∀ bs ∈ NetworkRandomizer._random_function 2 (1/2) 0 (fun _ => 0),
        decodeBits bs < 2 ^ 2) ∧
    (1 ≤ 2 → ∀ bs ∈ NetworkRandomizer._random_function 2 (1/2) 0 (fun _ => 0),
        bs.length = 2) :=
  random_function_stochastic_rounding 2 (1/2) 0 (fun _ => 0) (by norm_num)
    (by norm_num) (by norm_num)

/-- C7 counterexample: at arity `k = 0` with `p = 1` the generator emits the
bitstring of a single zero, which has width 1, not the claimed fixed
width `k = 0`. -/
theorem random_function_width_zero_counterexample :
    NetworkRandomizer._random_function 0 1 0 (fun _ => 0) = [[false]] ∧
    ∃ bs ∈ NetworkRandomizer._random_function 0 1 0 (fun _ => 0),
      bs.length ≠ 0 := by
  have h : NetworkRandomizer._random_function 0 1 0 (fun _ => 0) = [[false]] := by
    unfold NetworkRandomizer._random_function NetworkRandomizer.numStates
    norm_num
    decide
  exact ⟨h, [false], by rw [h]; exact List.mem_singleton.mpr rfl, by decide⟩

/-! ### `_randomize` table invariants -/

theorem predecessors_length (g : DiGraph) (v : ℕ) :
    (g.predecessors v).length = g.inDegree v := by
  unfold DiGraph.predecessors DiGraph.inDegree
  exact List.length_map _ _

/-- C8 (amended): every row of a table produced by
`NetworkRandomizer._randomize` has a duplicate-free on-input-set; for a
node of in-degree at least 1, every bitstring of the on-input-set has
length exactly the arity of the predecessor tuple; for a node of
in-degree 0, the on-input-set holds width-1 bitstrings of a single zero
(violating the arity-length invariant, see the counterexample). -/
theorem randomize_row_invariant (g : DiGraph) (pf : ℕ → ℚ) (u : ℕ → ℚ)
    (sd : ℕ → ℕ → ℕ) :
    ∀ row ∈ (NetworkRandomizer._randomize g pf u sd).table,
      row.2.Nodup ∧
      (1 ≤ row.1.length → ∀ bs ∈ row.2, bs.length = row.1.length) ∧
      (row.1.length = 0 → ∀ bs ∈ row.2, bs = [false]) := by
  intro row hrow
  unfold NetworkRandomizer._randomize at hrow
  obtain ⟨node, hnode, rfl⟩ := List.mem_map.mp hrow
  refine ⟨random_function_nodup _ _ _ _, ?_, ?_⟩
  · intro hk bs hbs
    rw [predecessors_length] at hk ⊢
    exact random_function_width _ hk _ _ _ bs hbs
  · intro hk bs hbs
    rw [predecessors_length] at hk
    rw [show g.inDegree node = 0 from hk] at hbs
    exact random_function_arity_zero _ _ _ bs hbs

/-- C8 witness: the theorem evaluated at the in-degree-1 row of the table
drawn over a two-node graph with one edge at bias 1. -/
theorem randomize_row_invariant_witness :
    ([0], [[false], [true]]) ∈ (NetworkRandomizer._randomize ⟨[0, 1], [(0, 1)]⟩
      (fun _ => 1) (fun _ => 0) (fun _ _ => 0)).table ∧
    [[false], [true]].Nodup ∧
    [false].length = [0].length := by
  have htab : (NetworkRandomizer._randomize ⟨[0, 1], [(0, 1)]⟩ (fun _ => 1)
      (fun _ => 0) (fun _ _ => 0)).table =
      [([], [[false]]), ([0], [[false], [true]])] := by
    unfold NetworkRandomizer._randomize NetworkRandomizer._random_function
      NetworkRandomizer.numStates
    norm_num [DiGraph.predecessors, DiGraph.inDegree]
    decide
  have hmem : ([0], [[false], [true]]) ∈
      (NetworkRandomizer._randomize ⟨[0, 1], [(0, 1)]⟩ (fun _ => 1)
        (fun _ => 0) (fun _ _ => 0)).table := by
    rw [htab]
    decide
  have h := randomize_row_invariant ⟨[0, 1], [(0, 1)]⟩ (fun _ => 1) (fun _ => 0)
    (fun _ _ => 0) ([0], [[false], [true]]) hmem
  exact ⟨hmem, h.1, h.2.1 (by decide) [false] (by decide)⟩

/-- C8 counterexample: over a topology with an in-degree-0 node and bias
`p = 1`, the produced table pairs an empty predecessor tuple (arity 0)
with an on-input-set holding a bitstring of length 1. -/
theorem randomize_arity_counterexample :
    (NetworkRandomizer._randomize ⟨[0], []⟩ (fun _ => 1) (fun _ => 0)
        (fun _ _ => 0)).table = [([], [[false]])] ∧
    ∃ row ∈ (NetworkRandomizer._randomize ⟨[0], []⟩ (fun _ => 1) (fun _ => 0)
        (fun _ _ => 0)).table,
      ∃ bs ∈ row.2, bs.length ≠ row.1.length := by
  have h : (NetworkRandomizer._randomize ⟨[0], []⟩ (fun _ => 1) (fun _ => 0)
      (fun _ _ => 0)).table = [([], [[false]])] := by
    unfold NetworkRandomizer._randomize NetworkRandomizer._random_function
      NetworkRandomizer.numStates
    norm_num [DiGraph.predecessors, DiGraph.inDegree]
    decide
  refine ⟨h, ([], [[false]]), by rw [h]; exact List.mem_singleton.mpr rfl,
    [false], by decide, by decide⟩

/-! ### `NetworkRandomizer.__init__` trand handling -/

/-- C2: `NetworkRandomizer.__init__` stores its `trand` argument unchanged
(the normalization of dynamics.py lines 27-34 is commented out), so a
non-randomizer value is accepted without a `TypeError` and `None` stays
`None` instead of defaulting to `FixedTopology` — contradicting the
constructor's docstring, the repository's tests
(`test_network_randomizer_trand`), and the spec, whose required behaviour
is `NetworkRandomizer.initTrandSpec`. -/
theorem initTrand_skips_normalization :
    NetworkRandomizer.initTrand TrandArg.badInst = .ok TrandArg.badInst ∧
    NetworkRandomizer.initTrand TrandArg.noneArg = .ok TrandArg.noneArg ∧
    NetworkRandomizer.initTrandSpec ⟨[0], []⟩ TrandArg.badInst =
      .error .typeError ∧
    NetworkRandomizer.initTrandSpec ⟨[0], []⟩ TrandArg.noneArg =
      .ok ⟨true, ⟨[0], []⟩, []⟩ :=
  ⟨rfl, rfl, rfl, rfl⟩

/-! ### MeanBias construction -/

/-- C4 counterexample: constructing `MeanBias` over a reference network
that is not a logic-table network raises `NotImplementedError` at
construction time (dynamics.py lines 142-143), and so does constructing
`LocalBias` over a non-logic-table reference or with an incompatible
topology strategy (per the spec-modelled `LocalBias.init`, whose raise
point is pinned by the repository's `test_unimplemented`) — exactly what
the claim denies. -/
theorem bias_randomizers_raise_at_construction :
    MeanBias.init NetRef.nonLogic = .error .notImplementedError ∧
    LocalBias.init NetRef.nonLogic TRStrategy.fixedTopology =
      .error .notImplementedError ∧
    LocalBias.init (NetRef.logic ⟨[]⟩) TRStrategy.meanDegree =
      .error .notImplementedError :=
  ⟨rfl, rfl, rfl⟩

/-- C4 (amended): `MeanBias` and `LocalBias` raise `NotImplementedError`
at construction time — `MeanBias` on any non-logic-table reference,
`LocalBias` additionally whenever the topology strategy is neither
`FixedTopology` nor `InDegree` — and succeed exactly otherwise; whereas
`IsIrreducible`'s not-implemented error is raised only when `satisfies`
is exercised on a network that is not a logic-table network (its
construction takes no network and cannot raise), with a `TypeError` on
non-network subjects and the dependency check on logic networks. -/
theorem notimplemented_raise_points :
    (∀ network : NetRef, (∃ q, MeanBias.init network = .ok q) ↔
      ∃ n, network = NetRef.logic n) ∧
    (∀ (network : NetRef) (strategy : TRStrategy),
      (∃ ps, LocalBias.init network strategy = .ok ps) ↔
        ((∃ n, network = NetRef.logic n) ∧
          (strategy = TRStrategy.fixedTopology ∨
            strategy = TRStrategy.inDegree))) ∧
    (∀ n : LogicNet,
      IsIrreducible.satisfies (NetArg.logic n) = .ok n.irreducible) ∧
    IsIrreducible.satisfies NetArg.wtNet = .error .notImplementedError ∧
    IsIrreducible.satisfies NetArg.notNet = .error .typeError := by
  refine ⟨?_, ?_, fun n => rfl, rfl, rfl⟩
  · intro network
    cases network with
    | logic n =>
      exact ⟨fun _ => ⟨n, rfl⟩, fun _ => ⟨LogicNet._mean_bias n, rfl⟩⟩
    | nonLogic =>
      constructor
      · rintro ⟨q, h⟩
        cases h
      · rintro ⟨n, h⟩
        cases h
  · intro network strategy
    cases network with
    | logic n =>
      cases strategy with
      | fixedTopology =>
        exact ⟨fun _ => ⟨⟨n, rfl⟩, Or.inl rfl⟩,
          fun _ => ⟨n.table.map LogicNet.rowBias, rfl⟩⟩
      | inDegree =>
        exact ⟨fun _ => ⟨⟨n, rfl⟩, Or.inr rfl⟩,
          fun _ => ⟨n.table.map LogicNet.rowBias, rfl⟩⟩
      | meanDegree =>
        constructor
        · rintro ⟨ps, h⟩
          cases h
        · rintro ⟨_, h | h⟩ <;> cases h
      | outDegree =>
        constructor
        · rintro ⟨ps, h⟩
          cases h
        · rintro ⟨_, h | h⟩ <;> cases h
    | nonLogic =>
      constructor
      · rintro ⟨ps, h⟩
        cases h
      · rintro ⟨⟨n, h⟩, _⟩
        cases h

/-! ### The rejection loop of `NetworkRandomizer.random` -/

theorem loopOutcome_allreject_running (timeout : Int) (ds : List DynCon)
    (gen : ℕ → LogicNet)
    (hrej : ∀ l : ℕ, NetworkRandomizer.checkConstraints ds (gen l) = .ok false) :
    ∀ m : ℕ, ((m : Int) ≤ timeout ∨ timeout ≤ 0) →
      NetworkRandomizer.loopOutcome timeout ds gen m = .running m := by
  intro m
  induction m with
  | zero => intro _; rfl
  | succ l ih =>
    intro hm
    have hl : ((l : Int) ≤ timeout ∨ timeout ≤ 0) := by
      rcases hm with h | h
      · left; omega
      · right; exact h
    have hguard : NetworkRandomizer.guard timeout l = true := by
      unfold NetworkRandomizer.guard
      rcases hm with h | h
      · simp only [Bool.or_eq_true, decide_eq_true_eq]
        right; omega
      · simp only [Bool.or_eq_true, decide_eq_true_eq]
        left; exact h
    simp only [NetworkRandomizer.loopOutcome, ih hl, hguard, if_true, hrej l]

theorem loopOutcome_allreject_raised (timeout : Int) (ds : List DynCon)
    (gen : ℕ → LogicNet)
    (hrej : ∀ l : ℕ, NetworkRandomizer.checkConstraints ds (gen l) = .ok false)
    (hpos : 0 < timeout) :
    ∀ n : ℕ, timeout.toNat < n →
      NetworkRandomizer.loopOutcome timeout ds gen n = .raised .constraintError := by
  intro n
  induction n with
  | zero => intro h; omega
  | succ m ih =>
    intro hn
    rcases Nat.lt_or_ge timeout.toNat m with hm | hm
    · simp only [NetworkRandomizer.loopOutcome, ih hm]
    · have hmeq : m = timeout.toNat := by omega
      have hrun := loopOutcome_allreject_running timeout ds gen hrej m
        (Or.inl (by omega))
      have hguard : NetworkRandomizer.guard timeout m = false := by
        unfold NetworkRandomizer.guard
        simp only [Bool.or_eq_false_iff, decide_eq_false_iff_not]
        constructor
        · omega
        · omega
      simp only [NetworkRandomizer.loopOutcome, hrun, hguard,
        Bool.false_eq_true, if_false]

/-- C3: when every candidate is rejected by the dynamical constraints, a
`random()` call with `timeout > 0` generates exactly `timeout` candidates
(after `m ≤ timeout` loop steps exactly `m` candidates have been generated
and rejected), then raises the `ConstraintError`; with `timeout ≤ 0` the
loop runs forever, never raising. -/
theorem random_timeout_exhaustion (timeout : Int) (ds : List DynCon)
    (tdraws : ℕ → DiGraph) (pf : ℕ → ℚ) (u : ℕ → ℕ → ℚ) (sd : ℕ → ℕ → ℕ → ℕ)
    (hrej : ∀ net : LogicNet,
      NetworkRandomizer.checkConstraints ds net = .ok false) :
    (0 < timeout →
      (∀ m : ℕ, (m : Int) ≤ timeout →
        NetworkRandomizer.randomOutcome timeout ds tdraws pf u sd m =
          .running m) ∧
      (∀ n : ℕ, timeout.toNat < n →
        NetworkRandomizer.randomOutcome timeout ds tdraws pf u sd n =
          .raised .constraintError)) ∧
    (timeout ≤ 0 → ∀ n : ℕ,
      NetworkRandomizer.randomOutcome timeout ds tdraws pf u sd n =
        .running n) := by
  constructor
  · intro hpos
    constructor
    · intro m hm
      exact loopOutcome_allreject_running timeout ds _ (fun l => hrej _) m
        (Or.inl hm)
    · intro n hn
      exact loopOutcome_allreject_raised timeout ds _ (fun l => hrej _) hpos n hn
  · intro hneg n
    exact loopOutcome_allreject_running timeout ds _ (fun l => hrej _) n
      (Or.inr hneg)

/-- C3 witness: a single always-false dynamical constraint with
`timeout = 2` yields two rejected candidates and raises on the third
step. -/
theorem random_timeout_exhaustion_witness :
    NetworkRandomizer.randomOutcome 2 [DynCon.genericDynamical (fun _ => false)]
      (fun _ => ⟨[0], []⟩) (fun _ => 0) (fun _ _ => 0) (fun _ _ _ => 0) 2 =
      .running 2 ∧
    NetworkRandomizer.randomOutcome 2 [DynCon.genericDynamical (fun _ => false)]
      (fun _ => ⟨[0], []⟩) (fun _ => 0) (fun _ _ => 0) (fun _ _ _ => 0) 3 =
      .raised .constraintError := by
  have h := random_timeout_exhaustion 2 [DynCon.genericDynamical (fun _ => false)]
    (fun _ => ⟨[0], []⟩) (fun _ => 0) (fun _ _ => 0) (fun _ _ _ => 0)
    (fun net => rfl)
  exact ⟨(h.1 (by norm_num)).1 2 (by norm_num),
    (h.1 (by norm_num)).2 3 (by norm_num)⟩

/-- C1 (amended): the topology is drawn from `trand.random()` exactly once
per `random()` call, before the rejection loop, and reused for every
retry: the outcome depends on the stream of available topology draws only
through its first element, so changing every later draw changes nothing. -/
theorem random_topology_drawn_once (timeout : Int) (ds : List DynCon)
    (tdraws tdraws2 : ℕ → DiGraph) (pf : ℕ → ℚ) (u : ℕ → ℕ → ℚ)
    (sd : ℕ → ℕ → ℕ → ℕ) (h0 : tdraws2 0 = tdraws 0) (n : ℕ) :
    NetworkRandomizer.randomOutcome timeout ds tdraws2 pf u sd n =
      NetworkRandomizer.randomOutcome timeout ds tdraws pf u sd n := by
  unfold NetworkRandomizer.randomOutcome
  rw [h0]

/-- C1 amended-theorem witness: two streams agreeing only on draw 0 give
identical outcomes. -/
theorem random_topology_drawn_once_witness :
    NetworkRandomizer.randomOutcome 2 []
      (fun i => if i = 0 then ⟨[0], []⟩ else ⟨[0, 1], []⟩) (fun _ => 0)
      (fun _ _ => 0) (fun _ _ _ => 0) 1 =
    NetworkRandomizer.randomOutcome 2 [] (fun _ => ⟨[0], []⟩) (fun _ => 0)
      (fun _ _ => 0) (fun _ _ _ => 0) 1 :=
  random_topology_drawn_once 2 []
    (fun _ => ⟨[0], []⟩) (fun i => if i = 0 then ⟨[0], []⟩ else ⟨[0, 1], []⟩)
    (fun _ => 0) (fun _ _ => 0) (fun _ _ _ => 0) rfl 1

theorem random_function_zero_bias (k : ℕ) (u : ℚ) (hu : u < 1) (sd : ℕ → ℕ) :
    NetworkRandomizer._random_function k 0 u sd = [] := by
  unfold NetworkRandomizer._random_function NetworkRandomizer.numStates
  rw [zero_mul, Int.floor_zero, Int.fract_zero]
  simp only [Int.toNat_zero, sub_zero, hu, if_pos, Nat.zero_add]
  rfl

theorem randomize_zero_bias (g : DiGraph) (u : ℕ → ℚ) (sd : ℕ → ℕ → ℕ)
    (hu : ∀ v, u v < 1) :
    NetworkRandomizer._randomize g (fun _ => 0) u sd =
      ⟨g.nodes.map (fun v => (g.predecessors v, []))⟩ := by
  have hrw : ∀ v : ℕ, NetworkRandomizer._random_function (g.inDegree v) 0 (u v)
      (sd v) = [] :=
    fun v => random_function_zero_bias (g.inDegree v) (u v) (hu v) (sd v)
  unfold NetworkRandomizer._randomize
  simp only [hrw]

/-- C1 counterexample: with a constraint accepting exactly the candidates
built over the second available topology, the code (topology drawn once)
exhausts its retries and raises, while the claim's fresh-draw-per-retry
semantics (`randomFreshClaim`) accepts at the second iteration — so the
`i`-th candidate is not built over a fresh `i`-th topology draw. -/
theorem random_fresh_topology_counterexample :
    NetworkRandomizer.randomOutcome 2
      [DynCon.genericDynamical (fun net => net.table.length == 2)]
      (fun i => if i = 0 then ⟨[0], []⟩ else ⟨[0, 1], []⟩) (fun _ => 0)
      (fun _ _ => 0) (fun _ _ _ => 0) 3 = .raised .constraintError ∧
    NetworkRandomizer.randomFreshClaim 2
      [DynCon.genericDynamical (fun net => net.table.length == 2)]
      (fun i => if i = 0 then ⟨[0], []⟩ else ⟨[0, 1], []⟩) (fun _ => 0)
      (fun _ _ => 0) (fun _ _ _ => 0) 3 =
      .returned ⟨[([], []), ([], [])]⟩ := by
  have hz : ∀ gr : DiGraph, NetworkRandomizer._randomize gr (fun _ => 0)
      (fun _ => (0 : ℚ)) (fun _ _ => 0) =
      ⟨gr.nodes.map (fun v => (gr.predecessors v, []))⟩ :=
    fun gr => randomize_zero_bias gr _ _ (fun _ => by norm_num)
  constructor
  · simp only [NetworkRandomizer.randomOutcome, NetworkRandomizer.loopOutcome, hz]
    decide
  · simp only [NetworkRandomizer.randomFreshClaim, NetworkRandomizer.loopOutcome, hz]
    decide

/-! ### Constraint routing of `NetworkRandomizer` -/

theorem partition_raises_of_other : ∀ cs : List CElem, CElem.other ∈ cs →
    NetworkRandomizer.partitionConstraints cs = .error .typeError := by
  intro cs
  induction cs with
  | nil => intro h; simp at h
  | cons c rest ih =>
    intro h
    cases c with
    | dyn d =>
      have : CElem.other ∈ rest := by
        rcases List.mem_cons.mp h with h1 | h1
        · cases h1
        · exact h1
      simp only [NetworkRandomizer.partitionConstraints, ih this, Except.map]
    | topo t =>
      have : CElem.other ∈ rest := by
        rcases List.mem_cons.mp h with h1 | h1
        · cases h1
        · exact h1
      simp only [NetworkRandomizer.partitionConstraints, ih this, Except.map]
    | call f =>
      have : CElem.other ∈ rest := by
        rcases List.mem_cons.mp h with h1 | h1
        · cases h1
        · exact h1
      simp only [NetworkRandomizer.partitionConstraints, ih this, Except.map]
    | other => rfl

theorem partition_eq_filterMap : ∀ cs : List CElem, CElem.other ∉ cs →
    NetworkRandomizer.partitionConstraints cs =
      .ok (cs.filterMap CElem.topoPart, cs.filterMap CElem.dynPart) := by
  intro cs
  induction cs with
  | nil => intro _; rfl
  | cons c rest ih =>
    intro h
    have hrest : CElem.other ∉ rest := fun hr => h (List.mem_cons_of_mem c hr)
    cases c with
    | dyn d =>
      simp only [NetworkRandomizer.partitionConstraints, ih hrest, Except.map,
        List.filterMap_cons, CElem.topoPart, CElem.dynPart]
    | topo t =>
      simp only [NetworkRandomizer.partitionConstraints, ih hrest, Except.map,
        List.filterMap_cons, CElem.topoPart, CElem.dynPart]
    | call f =>
      simp only [NetworkRandomizer.partitionConstraints, ih hrest, Except.map,
        List.filterMap_cons, CElem.topoPart, CElem.dynPart]
    | other => exact absurd (List.mem_cons_self _ _) h

theorem normalizeAll_map_con : ∀ ts : List TopoCon,
    TopologyRandomizer.normalizeAll (ts.map TopoElem.con) = .ok ts := by
  intro ts
  induction ts with
  | nil => rfl
  | cons t rest ih =>
    simp only [List.map_cons, TopologyRandomizer.normalizeAll,
      TopologyRandomizer.normalize1, ih, Except.map]

theorem normalizeValidate_map_con_ok (g : DiGraph) : ∀ (ts l : List TopoCon),
    FixedTopology.normalizeValidate g (ts.map TopoElem.con) = .ok l → l = ts := by
  intro ts
  induction ts with
  | nil => intro l h; cases h; rfl
  | cons t rest ih =>
    intro l h
    simp only [List.map_cons, FixedTopology.normalizeValidate,
      TopologyRandomizer.normalize1] at h
    cases hsat : TopoCon.satisfiesOn t g with
    | error e => rw [hsat] at h; cases h
    | ok b =>
      cases b with
      | false => rw [hsat] at h; cases h
      | true =>
        rw [hsat] at h
        cases hrec : FixedTopology.normalizeValidate g (rest.map TopoElem.con) with
        | error e => rw [hrec] at h; cases h
        | ok l' =>
          rw [hrec] at h
          simp only [Except.map, Except.ok.injEq] at h
          rw [← h, ih l' hrec]

theorem trstate_set_ok_tcons (st : TRState) (ts : List TopoCon)
    (h : (TRState.setConstraints st (ts.map TopoElem.con)).2 = none) :
    (TRState.setConstraints st (ts.map TopoElem.con)).1.tcons = ts := by
  unfold TRState.setConstraints at h ⊢
  by_cases hfix : st.fixed = true
  · rw [if_pos hfix] at h ⊢
    cases hv : FixedTopology.normalizeValidate st.graph (ts.map TopoElem.con) with
    | error e =>
      simp only [hv] at h
      exact Option.noConfusion h
    | ok l =>
      simp only [hv]
      exact normalizeValidate_map_con_ok st.graph ts l hv
  · rw [if_neg hfix] at h ⊢
    simp only [normalizeAll_map_con]

theorem trstate_set_generic_none (st : TRState) (ts : List TopoCon)
    (hfix : st.fixed = false) :
    (TRState.setConstraints st (ts.map TopoElem.con)).2 = none := by
  unfold TRState.setConstraints
  rw [if_neg (by simp [hfix])]
  simp only [normalizeAll_map_con]

/-- C5: assigning a constraint list to a `NetworkRandomizer` partitions it
deterministically and stably: when the assignment succeeds, `trand` holds
exactly the topological constraints in their original relative order and
the randomizer holds exactly the dynamical constraints (bare callables
wrapped in `GenericDynamical`) in their original relative order; an
element that is neither callable nor a constraint raises a `TypeError`;
and on a non-eager `trand` the assignment of a well-typed list always
succeeds. -/
theorem networkrandomizer_constraint_partition (s : NRState) (cs : List CElem) :
    (CElem.other ∈ cs →
      (NetworkRandomizer.setConstraints s cs).2 = some .typeError) ∧
    ((NetworkRandomizer.setConstraints s cs).2 = none →
      (NetworkRandomizer.setConstraints s cs).1.trand.tcons =
        cs.filterMap CElem.topoPart ∧
      (NetworkRandomizer.setConstraints s cs).1.dcons =
        cs.filterMap CElem.dynPart) ∧
    (s.trand.fixed = false → CElem.other ∉ cs →
      (NetworkRandomizer.setConstraints s cs).2 = none) := by
  refine ⟨?_, ?_, ?_⟩
  · intro hmem
    unfold NetworkRandomizer.setConstraints
    rw [partition_raises_of_other cs hmem]
  · intro hok
    cases hp : NetworkRandomizer.partitionConstraints cs with
    | error e =>
      exfalso
      unfold NetworkRandomizer.setConstraints at hok
      simp only [hp] at hok
      exact Option.noConfusion hok
    | ok r =>
      have hnother : CElem.other ∉ cs := by
        intro hmem
        rw [partition_raises_of_other cs hmem] at hp
        cases hp
      have hr : r = (cs.filterMap CElem.topoPart, cs.filterMap CElem.dynPart) := by
        have := partition_eq_filterMap cs hnother
        rw [hp] at this
        exact (Except.ok.injEq _ _).mp this
      cases htr : TRState.setConstraints s.trand (r.1.map TopoElem.con) with
      | mk tr2 err =>
        cases err with
        | some e =>
          exfalso
          unfold NetworkRandomizer.setConstraints at hok
          simp only [hp, htr] at hok
          exact Option.noConfusion hok
        | none =>
          unfold NetworkRandomizer.setConstraints
          simp only [hp, htr]
          constructor
          · have h2 := trstate_set_ok_tcons s.trand r.1 (by rw [htr])
            rw [htr] at h2
            simp only at h2
            rw [h2, hr]
          · rw [hr]
  · intro hfix hnother
    unfold NetworkRandomizer.setConstraints
    have h2 := trstate_set_generic_none s.trand (cs.filterMap CElem.topoPart) hfix
    cases htr : TRState.setConstraints s.trand
        ((cs.filterMap CElem.topoPart).map TopoElem.con) with
    | mk tr2 err =>
      rw [htr] at h2
      simp only at h2
      simp only [partition_eq_filterMap cs hnother, htr, h2]

/-- C5 witness: a mixed list (dynamical, topological, bare callable) over a
non-eager topology randomizer routes as claimed. -/
theorem networkrandomizer_constraint_partition_witness :
    (NetworkRandomizer.setConstraints
        ⟨⟨false, ⟨[], []⟩, []⟩, []⟩
        [CElem.dyn DynCon.isIrreducible, CElem.topo TopoCon.isConnected,
          CElem.call (fun _ => false)]).2 = none ∧
    (NetworkRandomizer.setConstraints
        ⟨⟨false, ⟨[], []⟩, []⟩, []⟩
        [CElem.dyn DynCon.isIrreducible, CElem.topo TopoCon.isConnected,
          CElem.call (fun _ => false)]).1.trand.tcons =
      [TopoCon.isConnected] ∧
    (NetworkRandomizer.setConstraints
        ⟨⟨false, ⟨[], []⟩, []⟩, []⟩
        [CElem.dyn DynCon.isIrreducible, CElem.topo TopoCon.isConnected,
          CElem.call (fun _ => false)]).1.dcons =
      [DynCon.isIrreducible, DynCon.genericDynamical (fun _ => false)] := by
  have h := networkrandomizer_constraint_partition
    ⟨⟨false, ⟨[], []⟩, []⟩, []⟩
    [CElem.dyn DynCon.isIrreducible, CElem.topo TopoCon.isConnected,
      CElem.call (fun _ => false)]
  have hnother : CElem.other ∉
      [CElem.dyn DynCon.isIrreducible, CElem.topo TopoCon.isConnected,
        CElem.call (fun _ => false)] := by
    intro hmem
    rcases List.mem_cons.mp hmem with h1 | hmem
    · cases h1
    rcases List.mem_cons.mp hmem with h1 | hmem
    · cases h1
    rcases List.mem_cons.mp hmem with h1 | hmem
    · cases h1
    · simp at hmem
  have hnone := h.2.2 rfl hnother
  exact ⟨hnone, (h.2.1 hnone).1, (h.2.1 hnone).2⟩

/-! ### Atomicity of constraint assignment -/

theorem trstate_set_atomic (st : TRState) (cs : List TopoElem) (e : PyError)
    (h : (TRState.setConstraints st cs).2 = some e) :
    (TRState.setConstraints st cs).1 = st := by
  unfold TRState.setConstraints at h ⊢
  cases hv : (if st.fixed = true then FixedTopology.normalizeValidate st.graph cs
      else TopologyRandomizer.normalizeAll cs) with
  | error e2 => simp only [hv]
  | ok l =>
    simp only [hv] at h
    exact Option.noConfusion h

/-- C10: if assigning a constraint list to a `NetworkRandomizer` raises
(a `TypeError` for an invalid element or an error propagated from
`trand`'s eager validation), both the randomizer's own dynamical
constraint list and `trand`'s topological constraint list are left
exactly as they were. -/
theorem networkrandomizer_set_atomic (s : NRState) (cs : List CElem)
    (e : PyError) (h : (NetworkRandomizer.setConstraints s cs).2 = some e) :
    (NetworkRandomizer.setConstraints s cs).1 = s := by
  cases hp : NetworkRandomizer.partitionConstraints cs with
  | error e2 =>
    unfold NetworkRandomizer.setConstraints
    simp only [hp]
  | ok r =>
    cases htr : TRState.setConstraints s.trand (r.1.map TopoElem.con) with
    | mk tr2 err =>
      cases err with
      | none =>
        exfalso
        unfold NetworkRandomizer.setConstraints at h
        simp only [hp, htr] at h
        exact Option.noConfusion h
      | some e2 =>
        unfold NetworkRandomizer.setConstraints
        simp only [hp, htr]
        have h2 := trstate_set_atomic s.trand (r.1.map TopoElem.con) e2
          (by rw [htr])
        rw [htr] at h2
        simp only at h2
        rw [h2]

/-- C10 witness: a `FixedTopology` trand rejecting an unsatisfied
external-node-count constraint leaves the whole randomizer untouched. -/
theorem networkrandomizer_set_atomic_witness :
    (NetworkRandomizer.setConstraints
        ⟨⟨true, ⟨[0], []⟩, []⟩, [DynCon.isIrreducible]⟩
        [CElem.topo (TopoCon.hasExternalNodes 5)]).2 =
      some PyError.constraintError ∧
    (NetworkRandomizer.setConstraints
        ⟨⟨true, ⟨[0], []⟩, []⟩, [DynCon.isIrreducible]⟩
        [CElem.topo (TopoCon.hasExternalNodes 5)]).1 =
      ⟨⟨true, ⟨[0], []⟩, []⟩, [DynCon.isIrreducible]⟩ := by
  have herr : (NetworkRandomizer.setConstraints
      ⟨⟨true, ⟨[0], []⟩, []⟩, [DynCon.isIrreducible]⟩
      [CElem.topo (TopoCon.hasExternalNodes 5)]).2 =
      some PyError.constraintError := rfl
  exact ⟨herr, networkrandomizer_set_atomic _ _ PyError.constraintError herr⟩

/-! ### FixedTopology eager validation -/

/-- Statement-side predicate: a constraint-list element normalizes and its
check on `g` returns a boolean rather than raising. -/
def TopoElem.evalTotal (g : DiGraph) (e : TopoElem) : Prop :=
  match TopologyRandomizer.normalize1 e with
  | .ok c => c.satisfiesOn g = .ok true ∨ c.satisfiesOn g = .ok false
  | .error _ => False

/-- Statement-side predicate: a constraint-list element normalizes to a
constraint that `g` does not satisfy. -/
def TopoElem.evalFails (g : DiGraph) (e : TopoElem) : Prop :=
  match TopologyRandomizer.normalize1 e with
  | .ok c => c.satisfiesOn g = .ok false
  | .error _ => False

theorem normalizeValidate_raises (g : DiGraph) : ∀ cs : List TopoElem,
    (∀ e ∈ cs, TopoElem.evalTotal g e) → (∃ e ∈ cs, TopoElem.evalFails g e) →
    FixedTopology.normalizeValidate g cs = .error .constraintError := by
  intro cs
  induction cs with
  | nil =>
    intro _ hbad
    obtain ⟨e, he, _⟩ := hbad
    simp at he
  | cons c rest ih =>
    intro hok hbad
    have hheadok := hok c (List.mem_cons_self _ _)
    unfold TopoElem.evalTotal at hheadok
    cases hn : TopologyRandomizer.normalize1 c with
    | error err => rw [hn] at hheadok; exact absurd hheadok not_false
    | ok c' =>
      rw [hn] at hheadok
      simp only [FixedTopology.normalizeValidate, hn]
      rcases hheadok with hsat | hsat
      · simp only [hsat]
        have hbadrest : ∃ e ∈ rest, TopoElem.evalFails g e := by
          obtain ⟨e, he, hef⟩ := hbad
          rcases List.mem_cons.mp he with rfl | he2
          · exfalso
            unfold TopoElem.evalFails at hef
            rw [hn] at hef
            rw [hef] at hsat
            cases hsat
          · exact ⟨e, he2, hef⟩
        rw [ih (fun e he => hok e (List.mem_cons_of_mem c he)) hbadrest]
        rfl
      · simp only [hsat]

/-- C6: for `FixedTopology`, constraints are validated eagerly — appending a
constraint the stored reference graph does not satisfy, or assigning a list
containing one (all checks returning booleans), fails immediately with a
`ConstraintError` — and `random()` returns the stored reference graph
unchanged; its total return type `DiGraph` records that it can never
raise. -/
theorem fixedtopology_eager_validation (st : TRState) (hfix : st.fixed = true)
    (c : TopoCon) (hc : c.satisfiesOn st.graph = .ok false)
    (cs : List TopoElem) (hok : ∀ e ∈ cs, TopoElem.evalTotal st.graph e)
    (hbad : ∃ e ∈ cs, TopoElem.evalFails st.graph e) :
    TRState.add_constraint st (.con c) = (st, some .constraintError) ∧
    (TRState.setConstraints st cs).2 = some .constraintError ∧
    (TRState.setConstraints st cs).1 = st ∧
    FixedTopology.random st = st.graph := by
  refine ⟨?_, ?_, ?_, rfl⟩
  · unfold TRState.add_constraint TopologyRandomizer.normalize1
    rw [hfix]
    simp only [if_true, hc]
  · unfold TRState.setConstraints
    rw [if_pos hfix, normalizeValidate_raises st.graph cs hok hbad]
  · exact trstate_set_atomic st cs .constraintError (by
      unfold TRState.setConstraints
      rw [if_pos hfix, normalizeValidate_raises st.graph cs hok hbad])

/-- C6 witness: a fixed topology over a two-node edgeless graph rejects an
external-node-count-5 constraint eagerly, both on append and on assign. -/
theorem fixedtopology_eager_validation_witness :
    TRState.add_constraint ⟨true, ⟨[0, 1], []⟩, []⟩
      (.con (TopoCon.hasExternalNodes 5)) =
      (⟨true, ⟨[0, 1], []⟩, []⟩, some .constraintError) ∧
    (TRState.setConstraints ⟨true, ⟨[0, 1], []⟩, []⟩
      [.con (TopoCon.hasExternalNodes 2), .con (TopoCon.hasExternalNodes 5)]).2 =
      some .constraintError ∧
    (TRState.setConstraints ⟨true, ⟨[0, 1], []⟩, []⟩
      [.con (TopoCon.hasExternalNodes 2), .con (TopoCon.hasExternalNodes 5)]).1 =
      ⟨true, ⟨[0, 1], []⟩, []⟩ ∧
    FixedTopology.random ⟨true, ⟨[0, 1], []⟩, []⟩ = ⟨[0, 1], []⟩ := by
  have h := fixedtopology_eager_validation ⟨true, ⟨[0, 1], []⟩, []⟩ rfl
    (TopoCon.hasExternalNodes 5) rfl
    [.con (TopoCon.hasExternalNodes 2), .con (TopoCon.hasExternalNodes 5)]
    (by
      intro e he
      rcases List.mem_cons.mp he with rfl | he2
      · exact Or.inl rfl
      rcases List.mem_cons.mp he2 with rfl | he3
      · exact Or.inr rfl
      · simp at he3)
    ⟨.con (TopoCon.hasExternalNodes 5), by simp, rfl⟩
  exact h

/-! ### Weak connectivity (C9) -/

theorem adjStep_subset (g : DiGraph) (s : Finset ℕ) :
    g.adjStep s ⊆ g.nodes.toFinset :=
  Finset.filter_subset _ _

theorem subset_adjStep (g : DiGraph) (s : Finset ℕ)
    (hs : s ⊆ g.nodes.toFinset) : s ⊆ g.adjStep s := by
  intro b hb
  unfold DiGraph.adjStep
  rw [Finset.mem_filter]
  exact ⟨hs hb, Or.inl hb⟩

theorem closureAux_subset (g : DiGraph) : ∀ (fuel : ℕ) (s : Finset ℕ),
    s ⊆ g.nodes.toFinset → g.closureAux fuel s ⊆ g.nodes.toFinset := by
  intro fuel
  induction fuel with
  | zero => intro s hs; exact hs
  | succ n ih =>
    intro s hs
    unfold DiGraph.closureAux
    split
    · exact hs
    · exact ih _ (adjStep_subset g s)

theorem subset_closureAux (g : DiGraph) : ∀ (fuel : ℕ) (s : Finset ℕ),
    s ⊆ g.nodes.toFinset → s ⊆ g.closureAux fuel s := by
  intro fuel
  induction fuel with
  | zero => intro s _; exact Finset.Subset.refl s
  | succ n ih =>
    intro s hs
    unfold DiGraph.closureAux
    split
    · exact Finset.Subset.refl s
    · exact (subset_adjStep g s hs).trans (ih _ (adjStep_subset g s))

theorem closureAux_fixpoint (g : DiGraph) : ∀ (fuel : ℕ) (s : Finset ℕ),
    s ⊆ g.nodes.toFinset → g.nodes.toFinset.card ≤ s.card + fuel →
    g.adjStep (g.closureAux fuel s) = g.closureAux fuel s := by
  intro fuel
  induction fuel with
  | zero =>
    intro s hs hcard
    have heq : s = g.nodes.toFinset :=
      Finset.eq_of_subset_of_card_le hs (by omega)
    show g.adjStep (g.closureAux 0 s) = g.closureAux 0 s
    unfold DiGraph.closureAux
    rw [heq]
    exact Finset.Subset.antisymm (adjStep_subset g _)
      (subset_adjStep g _ (Finset.Subset.refl _))
  | succ n ih =>
    intro s hs hcard
    unfold DiGraph.closureAux
    split
    · rename_i h
      exact h
    · rename_i h
      apply ih (g.adjStep s) (adjStep_subset g s)
      have hss : s ⊂ g.adjStep s :=
        Finset.ssubset_iff_subset_ne.mpr
          ⟨subset_adjStep g s hs, fun he => h he.symm⟩
      have := Finset.card_lt_card hss
      omega

theorem closureAux_reachable (g : DiGraph) : ∀ (fuel : ℕ) (s : Finset ℕ) (x : ℕ),
    x ∈ g.closureAux fuel s → ∃ a ∈ s, Relation.ReflTransGen g.adjP a x := by
  intro fuel
  induction fuel with
  | zero => intro s x hx; exact ⟨x, hx, Relation.ReflTransGen.refl⟩
  | succ n ih =>
    intro s x hx
    unfold DiGraph.closureAux at hx
    split at hx
    · exact ⟨x, hx, Relation.ReflTransGen.refl⟩
    · obtain ⟨a, ha, hrtg⟩ := ih _ x hx
      unfold DiGraph.adjStep at ha
      rw [Finset.mem_filter] at ha
      rcases ha.2 with h1 | ⟨a2, ha2, hadj⟩
      · exact ⟨a, h1, hrtg⟩
      · exact ⟨a2, ha2, Relation.ReflTransGen.head hadj hrtg⟩

theorem mem_closure_of_reachable (g : DiGraph) (hwf : g.wf) (C : Finset ℕ)
    (hfix : g.adjStep C = C) (v x : ℕ) (hv : v ∈ C)
    (hrtg : Relation.ReflTransGen g.adjP v x) :
    x ∈ g.nodes.toFinset → x ∈ C := by
  induction hrtg with
  | refl => intro _; exact hv
  | tail h1 h2 ih =>
    rename_i b c
    intro hc
    have hb : b ∈ g.nodes.toFinset := by
      rw [List.mem_toFinset]
      rcases h2 with he | he
      · exact (hwf.2.2 _ he).1
      · exact (hwf.2.2 _ he).2
    have hbC := ih hb
    rw [← hfix]
    unfold DiGraph.adjStep
    rw [Finset.mem_filter]
    exact ⟨hc, Or.inr ⟨b, hbC, h2⟩⟩

theorem adjP_symm (g : DiGraph) : Symmetric g.adjP := by
  intro a b h
  exact h.symm

theorem nxIsWeaklyConnected_cons (g : DiGraph) (v : ℕ) (rest : List ℕ)
    (hn : g.nodes = v :: rest) :
    nxIsWeaklyConnected g =
      some (decide (g.closureAux g.nodes.length {v} = g.nodes.toFinset)) := by
  unfold nxIsWeaklyConnected
  split
  · rename_i heq
    rw [hn] at heq
    cases heq
  · rename_i v2 rest2 heq
    rw [hn] at heq
    injection heq with h1 h2
    rw [h1]

theorem isconnected_satisfiesOn (g : DiGraph) (v : ℕ) (rest : List ℕ)
    (hn : g.nodes = v :: rest) :
    TopoCon.satisfiesOn TopoCon.isConnected g =
      .ok (decide (g.closureAux g.nodes.length {v} = g.nodes.toFinset)) := by
  unfold TopoCon.satisfiesOn
  rw [nxIsWeaklyConnected_cons g v rest hn]

/-- C9: applied to a well-formed non-empty directed graph,
`IsConnected.satisfies` returns `True` if and only if the graph is weakly
connected (any two nodes joined by a chain of edges ignoring direction);
applied to the null graph it raises a `ConstraintError`; applied to a
non-graph value it raises a `TypeError`. -/
theorem isconnected_satisfies_iff (g : DiGraph) (hwf : g.wf) :
    (g.nodes ≠ [] →
      (TopoCon.satisfies TopoCon.isConnected (GraphArg.graph g) = .ok true ↔
        g.WeaklyConnected)) ∧
    (g.nodes = [] →
      TopoCon.satisfies TopoCon.isConnected (GraphArg.graph g) =
        .error .constraintError) ∧
    TopoCon.satisfies TopoCon.isConnected GraphArg.notGraph =
      .error .typeError := by
  refine ⟨?_, ?_, rfl⟩
  · intro hne
    cases hn : g.nodes with
    | nil => exact absurd hn hne
    | cons v rest =>
      have hv_mem : v ∈ g.nodes := by
        rw [hn]
        exact List.mem_cons_self _ _
      have hsingle : ({v} : Finset ℕ) ⊆ g.nodes.toFinset := by
        intro y hy
        rw [Finset.mem_singleton] at hy
        rw [hy, List.mem_toFinset]
        exact hv_mem
      have hkey : (g.closureAux g.nodes.length {v} = g.nodes.toFinset) ↔
          g.WeaklyConnected := by
        constructor
        · intro hcl u hu w hw
          have huF : u ∈ g.closureAux g.nodes.length {v} := by
            rw [hcl]
            exact List.mem_toFinset.mpr hu
          have hwF : w ∈ g.closureAux g.nodes.length {v} := by
            rw [hcl]
            exact List.mem_toFinset.mpr hw
          obtain ⟨a, ha, hru⟩ := closureAux_reachable g _ _ u huF
          obtain ⟨a2, ha2, hrw⟩ := closureAux_reachable g _ _ w hwF
          rw [Finset.mem_singleton] at ha ha2
          subst ha
          subst ha2
          exact Relation.ReflTransGen.trans
            (Relation.ReflTransGen.symmetric (adjP_symm g) hru) hrw
        · intro hwc
          apply Finset.Subset.antisymm
          · exact closureAux_subset g _ _ hsingle
          · intro x hx
            have hx_mem : x ∈ g.nodes := List.mem_toFinset.mp hx
            have hrtg : Relation.ReflTransGen g.adjP v x := hwc v hv_mem x hx_mem
            have hfix := closureAux_fixpoint g g.nodes.length {v} hsingle (by
              have h1 := List.toFinset_card_le g.nodes
              rw [Finset.card_singleton]
              omega)
            exact mem_closure_of_reachable g hwf _ hfix v x
              (subset_closureAux g _ _ hsingle (Finset.mem_singleton_self v))
              hrtg hx
      have hred : TopoCon.satisfies TopoCon.isConnected (GraphArg.graph g) =
          TopoCon.satisfiesOn TopoCon.isConnected g := rfl
      rw [hred, isconnected_satisfiesOn g v rest hn]
      constructor
      · intro h
        apply hkey.mp
        have h2 : decide (g.closureAux g.nodes.length {v} = g.nodes.toFinset) =
            true := by
          injection h
        exact of_decide_eq_true h2
      · intro h
        rw [decide_eq_true (hkey.mpr h)]
  · intro hnil
    have hred : TopoCon.satisfies TopoCon.isConnected (GraphArg.graph g) =
        TopoCon.satisfiesOn TopoCon.isConnected g := rfl
    rw [hred]
    unfold TopoCon.satisfiesOn nxIsWeaklyConnected
    simp only [hnil]

/-- C9 witness: the evaluation on the connected two-node graph with a
single edge, plus the type-error branch. -/
theorem isconnected_satisfies_iff_witness :
    DiGraph.WeaklyConnected ⟨[0, 1], [(0, 1)]⟩ ∧
    TopoCon.satisfies TopoCon.isConnected GraphArg.notGraph =
      .error .typeError := by
  have h := isconnected_satisfies_iff ⟨[0, 1], [(0, 1)]⟩ (by decide)
  refine ⟨(h.1 (by decide)).mp ?_, h.2.2⟩
  rfl

/-- C4 amended-theorem witness: a logic-table reference succeeds for both
bias strategies, and `IsIrreducible` raises its not-implemented error only
from `satisfies`. -/
theorem notimplemented_raise_points_witness :
    (∃ q, MeanBias.init (NetRef.logic ⟨[]⟩) = .ok q) ∧
    (∃ ps, LocalBias.init (NetRef.logic ⟨[]⟩) TRStrategy.inDegree = .ok ps) ∧
    IsIrreducible.satisfies NetArg.wtNet = .error .notImplementedError := by
  have h := notimplemented_raise_points
  exact ⟨(h.1 (NetRef.logic ⟨[]⟩)).mpr ⟨⟨[]⟩, rfl⟩,
    (h.2.1 (NetRef.logic ⟨[]⟩) TRStrategy.inDegree).mpr
      ⟨⟨⟨[]⟩, rfl⟩, Or.inr rfl⟩,
    h.2.2.2.1⟩
